import Mathlib

/-!
Verification of the address swizzle engine of `nutexb_swizzle`.

The Rust source (`src/swizzle.rs`, `src/lib.rs`) is embedded shallowly:

* machine integers are `Nat` with explicit `% 2^32` where 32-bit wrapping
  matters;
* operations that panic in Rust (shift amounts of 32 or more, subtraction
  underflow, out-of-bounds slice indexing) are modelled as `Option` with
  `none` for the panic;
* byte buffers are `List Nat`, and the in-place double loop of
  `swizzle_experimental` is modelled by explicit state passing.
-/

set_option maxRecDepth 100000
set_option maxHeartbeats 8000000

namespace NutexbSwizzle

/-- The modulus of 32-bit arithmetic. -/
def U32 : Nat := 4294967296

/-- Truncation to 32 bits, as performed by Rust `u32` arithmetic. -/
def u32 (n : Nat) : Nat := n % U32

/-- Number of binary digits of `n` (fuel-based so the kernel can evaluate it). -/
def bitsAux : Nat → Nat → Nat
  | 0, _ => 0
  | fuel + 1, n => if n = 0 then 0 else bitsAux fuel (n / 2) + 1

/-- Number of binary digits of `n`, for `n < 2 ^ 64`. -/
def bits (n : Nat) : Nat := bitsAux 64 n

/-- Rust `u32::leading_zeros`, for arguments below `2 ^ 32`. -/
def leading_zeros (n : Nat) : Nat := 32 - bits n

/-- Right shift of a `u32`; Rust rejects shift amounts of 32 or more
(arithmetic overflow panic), modelled as `none`. -/
def shrChecked (a s : Nat) : Option Nat :=
  if s < 32 then some (a >>> s) else none

/-- Subtraction of `u32` values; Rust panics on underflow, modelled as `none`. -/
def subChecked (a b : Nat) : Option Nat :=
  if b ≤ a then some (a - b) else none

/-- Embedding of `swizzle_x_16` from `src/swizzle.rs`.  The Rust constants:
`!0 = 0xFFFFFFFF` and `!0 << 2 = 0xFFFFFFFC` as `u32`. -/
def swizzle_x_16 (width_in_blocks height_in_blocks : Nat) : Option Nat :=
  if width_in_blocks ≤ 2 then some (1 <<< 4) else do
    let x ← shrChecked 0xFFFFFFFF (leading_zeros width_in_blocks + 1)
    let s ← subChecked (32 - leading_zeros height_in_blocks) 1
    let max_shift := min s 7
    let result := ((x &&& 0x1) <<< 1) ||| ((x &&& 0x2) <<< 3) |||
      u32 ((x &&& 0xFFFFFFFC) <<< max_shift)
    some (u32 (result <<< 4))

/-- Embedding of `swizzle_y_16` from `src/swizzle.rs`. -/
def swizzle_y_16 (_width_in_blocks height_in_blocks : Nat) : Option Nat :=
  if height_in_blocks ≤ 2 then some (2 <<< 4) else do
    let y ← shrChecked 0xFFFFFFFF (leading_zeros height_in_blocks + 1)
    let result := (y &&& 0x1) ||| ((y &&& 0x6) <<< 1) ||| ((y &&& 0x78) <<< 2) |||
      ((y &&& 0x80) <<< 8)
    some (u32 (result <<< 4))

/-- Embedding of `swizzle_x_8` from `src/swizzle.rs`.  The Rust constant
`!0 << 3 = 0xFFFFFFF8` as `u32`. -/
def swizzle_x_8 (width_in_blocks height_in_blocks : Nat) : Option Nat := do
  let x ← shrChecked 0xFFFFFFFF (leading_zeros width_in_blocks + 1)
  let s ← subChecked (32 - leading_zeros height_in_blocks) 1
  let result := (x &&& 0x1) ||| ((x &&& 0x2) <<< 1) ||| ((x &&& 0x4) <<< 3) |||
    u32 ((x &&& 0xFFFFFFF8) <<< s)
  some (u32 (result <<< 3))

/-- Embedding of `swizzle_y_8` from `src/swizzle.rs`. -/
def swizzle_y_8 (_width_in_blocks height_in_blocks : Nat) : Option Nat := do
  let y ← shrChecked 0xFFFFFFFF (leading_zeros height_in_blocks + 1)
  let result := ((y &&& 0x1) <<< 1) ||| ((y &&& 0x6) <<< 2) ||| ((y &&& 0x78) <<< 3)
  some (u32 (result <<< 3))

/-- One update step of the mask walk: the Rust statement
`offset = (offset - mask) & mask` on `i32`, read on the 32-bit pattern.
For masks below `2 ^ 31` (all masks in this development) the pattern equals
the value. -/
def maskStep (m v : Nat) : Nat := ((v + (U32 - u32 m)) % U32) &&& m

/-- The value of a walk offset after `n` update steps starting from zero. -/
def offsets (m : Nat) : Nat → Nat
  | 0 => 0
  | n + 1 => maskStep m (offsets m n)

/-- The first `n` values of the mask walk of `m`. -/
def offsetsList (m n : Nat) : List Nat := (List.range n).map (offsets m)

/-- Byte buffers: Rust `&[u8]` slices as lists of bytes. -/
abbrev Buffer := List Nat

/-- Rust `destination[dstOff..dstOff+len].copy_from_slice(&src[srcOff..srcOff+len])`:
panics (`none`) when either range is out of bounds. -/
def copyFromSlice (dest : Buffer) (dstOff : Nat) (src : Buffer) (srcOff len : Nat) :
    Option Buffer :=
  if dstOff + len ≤ dest.length ∧ srcOff + len ≤ src.length then
    some (dest.take dstOff ++ (src.drop srcOff).take len ++ dest.drop (dstOff + len))
  else none

/-- The inner (column) loop of `swizzle_experimental`: `n` remaining columns,
current x-offset `ox`, linear counter `dst`, accumulated destination. -/
def innerLoop (mx oy : Nat) (src : Buffer) (deswizzle : Bool) (bpc : Nat) :
    Nat → Nat → Nat → Buffer → Option (Nat × Nat × Buffer)
  | 0, ox, dst, dest => some (ox, dst, dest)
  | n + 1, ox, dst, dest =>
    match (if deswizzle then copyFromSlice dest dst src (ox + oy) bpc
           else copyFromSlice dest (ox + oy) src dst bpc) with
    | none => none
    | some dest1 => innerLoop mx oy src deswizzle bpc n (maskStep mx ox) (dst + bpc) dest1

/-- The outer (row) loop of `swizzle_experimental`: `n` remaining rows.
The x-offset is threaded through rows without being reset, exactly as in the
Rust source. -/
def outerLoop (mx my w : Nat) (src : Buffer) (deswizzle : Bool) (bpc : Nat) :
    Nat → Nat → Nat → Nat → Buffer → Option Buffer
  | 0, _, _, _, dest => some dest
  | n + 1, ox, oy, dst, dest =>
    match innerLoop mx oy src deswizzle bpc w ox dst dest with
    | none => none
    | some (ox1, dst1, dest1) =>
      outerLoop mx my w src deswizzle bpc n ox1 (maskStep my oy) dst1 dest1

/-- Embedding of `swizzle_experimental` from `src/swizzle.rs`: computes the two
masks from the callables (on the `u32` casts of the dimensions) and runs the
double loop.  The returned buffer is the final `destination`. -/
def swizzle_experimental (swizzle_x swizzle_y : Nat → Nat → Option Nat)
    (width height : Nat) (source destination : Buffer) (deswizzle : Bool)
    (bytes_per_copy : Nat) : Option Buffer := do
  let x_mask ← swizzle_x (u32 width) (u32 height)
  let y_mask ← swizzle_y (u32 width) (u32 height)
  outerLoop x_mask y_mask width source deswizzle bytes_per_copy height 0 0 0 destination

/-- The format enumeration of `src/lib.rs`. -/
inductive ImageFormat
  | Rgba8
  | RgbaF32
  | Bc1
  | Bc3
  | Bc7
deriving DecidableEq

/-- Embedding of `get_tile_size` from `src/lib.rs`. -/
def get_tile_size : ImageFormat → Nat
  | .Rgba8 => 4
  | .RgbaF32 => 16
  | .Bc1 => 8
  | .Bc3 | .Bc7 => 16

/-- Embedding of `swizzle_data` from `src/lib.rs`. -/
def swizzle_data (input_data : Buffer) (width height : Nat) (format : ImageFormat) :
    Option Buffer :=
  let width_in_blocks := width / 4
  let height_in_blocks := height / 4
  let tile_size := get_tile_size format
  let output_data : Buffer := List.replicate (width_in_blocks * height_in_blocks * tile_size) 0
  match format with
  | .Rgba8 => some output_data
  | .Bc1 => swizzle_experimental swizzle_x_8 swizzle_y_8 width_in_blocks height_in_blocks
      input_data output_data false 8
  | .Bc3 | .Bc7 => swizzle_experimental swizzle_x_16 swizzle_y_16 width_in_blocks
      height_in_blocks input_data output_data false 16
  | .RgbaF32 => swizzle_experimental swizzle_x_16 swizzle_y_16 width height
      input_data output_data false 16

/-- Embedding of `deswizzle_data` from `src/lib.rs`. -/
def deswizzle_data (input_data : Buffer) (width height : Nat) (format : ImageFormat) :
    Option Buffer :=
  let width_in_blocks := width / 4
  let height_in_blocks := height / 4
  let tile_size := get_tile_size format
  let output_data : Buffer := List.replicate (width_in_blocks * height_in_blocks * tile_size) 0
  match format with
  | .Rgba8 => some output_data
  | .Bc1 => swizzle_experimental swizzle_x_8 swizzle_y_8 width_in_blocks height_in_blocks
      input_data output_data true 8
  | .Bc3 | .Bc7 => swizzle_experimental swizzle_x_16 swizzle_y_16 width_in_blocks
      height_in_blocks input_data output_data true 16
  | .RgbaF32 => swizzle_experimental swizzle_x_16 swizzle_y_16 width height
      input_data output_data true 16

/-- A finite map modelling the `AHashMap` of `create_mip_deswizzle_lut`; only
`insert` and `get` are used by the source. -/
def insertMap {α : Type} [DecidableEq α] (m : α → Option Nat) (k : α) (v : Nat) :
    α → Option Nat :=
  fun x => if x = k then some v else m x

/-- The first loop of `create_mip_deswizzle_lut`: scan `linear` in order,
inserting each block at its index; later duplicates overwrite earlier ones. -/
def buildIndexMap {α : Type} [DecidableEq α] :
    List α → Nat → (α → Option Nat) → (α → Option Nat)
  | [], _, m => m
  | v :: rest, i, m => buildIndexMap rest (i + 1) (insertMap m v i)

/-- Embedding of `create_mip_deswizzle_lut` from `src/lib.rs`: the parallel map
preserves order, so it is a plain `List.map`. -/
def create_mip_deswizzle_lut {α : Type} [DecidableEq α] (linear deswizzled : List α) :
    List Int :=
  let linear_index_by_block := buildIndexMap linear 0 (fun _ => none)
  deswizzled.map (fun block =>
    match linear_index_by_block block with
    | some i => (i : Int)
    | none => -1)

/-- The swizzled address visited by the walk at global step `t`
(row `t / w`, column `t % w`): the x-offset is stepped every iteration
without reset, the y-offset once per row. -/
def walkAddr (mx my w t : Nat) : Nat := offsets mx t + offsets my (t / w)

/-- All swizzled addresses visited by a `w × h` walk, in visit order. -/
def walkAddrList (mx my w h : Nat) : List Nat :=
  (List.range (w * h)).map (walkAddr mx my w)

/-- The tile-aligned byte offsets of a buffer of `w * h` tiles of `bpc` bytes. -/
def tileTargets (w h bpc : Nat) : List Nat := (List.range (w * h)).map (· * bpc)

/-- Maximum of a list of naturals. -/
def listMax (l : List Nat) : Nat := l.foldr max 0

/-- The decidable conditions on a mask pair under which the mask walk of a
`w × h` grid with `2 ^ k`-byte tiles is a bijection onto the tile-aligned
offsets: both per-axis walks are duplicate-free, the x-walk is periodic with
period `w` (not needed when there is a single row), the masks are disjoint
and tile-aligned, and the largest visited address fits in the buffer. -/
abbrev WalkGood (mx my w h k : Nat) : Prop :=
  0 < w ∧ 0 < h ∧
  (offsetsList mx w).Nodup ∧ (offsetsList my h).Nodup ∧
  (offsets mx w = 0 ∨ h = 1) ∧
  mx &&& my = 0 ∧ mx % 2 ^ k = 0 ∧ my % 2 ^ k = 0 ∧
  listMax (offsetsList mx w) + listMax (offsetsList my h) + 2 ^ k ≤ w * h * 2 ^ k

/-- Index of the last occurrence of `b` in a list, if any. -/
def lastOcc {α : Type} [DecidableEq α] : List α → α → Option Nat
  | [], _ => none
  | v :: rest, b =>
    match lastOcc rest b with
    | some i => some (i + 1)
    | none => if v = b then some 0 else none

/-- The spec's `bit_width` for `u32` values: `32 - leading_zeros`. -/
def bit_width (n : Nat) : Nat := 32 - leading_zeros n

/-- Modelled from the spec: the closed form claimed in §4.A for the 8-byte
x-mask, `((x & 0x1) | ((x & 0x2) << 1) | ((x & 0x4) << 3) |
((x & (~3)) << (bit_width(h) - 1))) << 3` with
`x = all-ones >> (leading_zeros(w) + 1)`; `~3 = 0xFFFFFFFC` as `u32`. -/
def specX8ClosedForm (w h : Nat) : Option Nat := do
  let x ← shrChecked 0xFFFFFFFF (leading_zeros w + 1)
  let s ← subChecked (bit_width h) 1
  let result := (x &&& 0x1) ||| ((x &&& 0x2) <<< 1) ||| ((x &&& 0x4) <<< 3) |||
    u32 ((x &&& 0xFFFFFFFC) <<< s)
  some (u32 (result <<< 3))

/-- The spec's closed form with the fourth term corrected from `x & ~3` to
`x & ~7` (`~7 = 0xFFFFFFF8` as `u32`), the bits actually used by the source. -/
def specX8ClosedFormAmended (w h : Nat) : Option Nat := do
  let x ← shrChecked 0xFFFFFFFF (leading_zeros w + 1)
  let s ← subChecked (bit_width h) 1
  let result := (x &&& 0x1) ||| ((x &&& 0x2) <<< 1) ||| ((x &&& 0x4) <<< 3) |||
    u32 ((x &&& 0xFFFFFFF8) <<< s)
  some (u32 (result <<< 3))

/-! General lemmas about masks and the offset walk. -/

theorem maskStep_and (m v : Nat) : maskStep m v &&& m = maskStep m v := by
  unfold maskStep
  rw [Nat.and_assoc, Nat.and_self]

theorem offsets_and (m : Nat) : ∀ n, offsets m n &&& m = offsets m n
  | 0 => Nat.zero_and m
  | n + 1 => maskStep_and m (offsets m n)

theorem le_of_and_eq {a m : Nat} (h : a &&& m = a) : a ≤ m := h ▸ Nat.and_le_right

theorem and_eq_zero_of_submasks {a b mx my : Nat} (ha : a &&& mx = a) (hb : b &&& my = b)
    (hd : mx &&& my = 0) : a &&& b = 0 := by
  apply Nat.eq_of_testBit_eq
  intro i
  simp only [Nat.testBit_and, Nat.zero_testBit]
  by_cases hta : a.testBit i
  · by_cases htb : b.testBit i
    · exfalso
      have h1 : mx.testBit i = true := by
        have h := congrArg (Nat.testBit · i) ha
        simp only [Nat.testBit_and, hta, Bool.true_and] at h
        exact h
      have h2 : my.testBit i = true := by
        have h := congrArg (Nat.testBit · i) hb
        simp only [Nat.testBit_and, htb, Bool.true_and] at h
        exact h
      have h3 := congrArg (Nat.testBit · i) hd
      simp only [Nat.testBit_and, h1, h2, Nat.zero_testBit, Bool.true_and] at h3
      exact Bool.noConfusion h3
    · simp [htb]
  · simp [hta]

theorem add_eq_or_of_and_eq_zero : ∀ a b : Nat, a &&& b = 0 → a + b = a ||| b := by
  intro a
  induction a using Nat.strong_induction_on with
  | _ a ih =>
    intro b h
    rcases Nat.eq_zero_or_pos a with ha | ha
    · simp [ha]
    · have hhalf : a / 2 &&& b / 2 = 0 := by
        rw [← Nat.and_div_two, h]
      have ih2 := ih (a / 2) (Nat.div_lt_self ha (by norm_num)) (b / 2) hhalf
      have hbits : ¬(a % 2 = 1 ∧ b % 2 = 1) := by
        intro hc
        have hone := Nat.and_mod_two_eq_one.mpr hc
        rw [h] at hone
        simp at hone
      have hor2 : (a ||| b) / 2 = a / 2 ||| b / 2 := Nat.or_div_two
      have hor1 := @Nat.or_mod_two_eq_one a b
      have d1 := Nat.div_add_mod a 2
      have d2 := Nat.div_add_mod b 2
      have d3 := Nat.div_add_mod (a ||| b) 2
      omega

theorem sum_components_eq {mx my a1 b1 a2 b2 : Nat} (hd : mx &&& my = 0)
    (ha1 : a1 &&& mx = a1) (hb1 : b1 &&& my = b1) (ha2 : a2 &&& mx = a2)
    (hb2 : b2 &&& my = b2) (h : a1 + b1 = a2 + b2) : a1 = a2 ∧ b1 = b2 := by
  have hdmy : my &&& mx = 0 := by rw [Nat.and_comm]; exact hd
  have recover : ∀ a b : Nat, a &&& mx = a → b &&& my = b → (a + b) &&& mx = a := by
    intro a b haa hbb
    rw [add_eq_or_of_and_eq_zero a b (and_eq_zero_of_submasks haa hbb hd),
      Nat.and_distrib_right, haa, and_eq_zero_of_submasks hbb (Nat.and_self mx) hdmy,
      Nat.or_zero]
  have e1 : a1 = a2 := by
    have r1 := recover a1 b1 ha1 hb1
    have r2 := recover a2 b2 ha2 hb2
    rw [← r1, ← r2, h]
  exact ⟨e1, by omega⟩

theorem mod_pow_eq_zero_of_submask {a m k : Nat} (ha : a &&& m = a) (hm : m % 2 ^ k = 0) :
    a % 2 ^ k = 0 := by
  have h1 : a &&& (2 ^ k - 1) = 0 := by
    conv_lhs => rw [← ha]
    rw [Nat.and_assoc]
    rw [Nat.and_pow_two_sub_one_eq_mod, hm, Nat.and_zero]
  rw [← Nat.and_pow_two_sub_one_eq_mod]
  exact h1

theorem offsets_add_period (m w : Nat) (h0 : offsets m w = 0) :
    ∀ j, offsets m (w + j) = offsets m j
  | 0 => by simpa using h0
  | j + 1 => by
    show maskStep m (offsets m (w + j)) = maskStep m (offsets m j)
    rw [offsets_add_period m w h0 j]

theorem offsets_mod (m w : Nat) (hw : 0 < w) (h0 : offsets m w = 0) (t : Nat) :
    offsets m t = offsets m (t % w) := by
  induction t using Nat.strong_induction_on with
  | _ t ih =>
    by_cases h : t < w
    · rw [Nat.mod_eq_of_lt h]
    · push_neg at h
      obtain ⟨j, rfl⟩ : ∃ j, t = w + j := ⟨t - w, by omega⟩
      rw [offsets_add_period m w h0 j, ih j (by omega), Nat.add_mod_left]

theorem le_listMax {l : List Nat} {a : Nat} (h : a ∈ l) : a ≤ listMax l := by
  induction l with
  | nil => cases h
  | cons x xs ih =>
    rcases List.mem_cons.mp h with rfl | h2
    · exact Nat.le_max_left _ _
    · exact Nat.le_trans (ih h2) (Nat.le_max_right _ _)

theorem offsets_mem {m w r : Nat} (h : r < w) : offsets m r ∈ offsetsList m w :=
  List.mem_map_of_mem _ (List.mem_range.mpr h)

theorem offsets_inj_of_nodup {m w : Nat} (hnd : (offsetsList m w).Nodup)
    {r1 r2 : Nat} (h1 : r1 < w) (h2 : r2 < w) (he : offsets m r1 = offsets m r2) :
    r1 = r2 :=
  List.inj_on_of_nodup_map hnd (List.mem_range.mpr h1) (List.mem_range.mpr h2) he

/-! Facts about walks satisfying `WalkGood`. -/

theorem WalkGood.w_pos {mx my w h k : Nat} (hg : WalkGood mx my w h k) : 0 < w := hg.1

theorem WalkGood.h_pos {mx my w h k : Nat} (hg : WalkGood mx my w h k) : 0 < h := hg.2.1

theorem WalkGood.div_lt {mx my w h k : Nat} (hg : WalkGood mx my w h k) {t : Nat}
    (ht : t < w * h) : t / w < h :=
  (Nat.div_lt_iff_lt_mul hg.w_pos).mpr (Nat.mul_comm w h ▸ ht)

theorem walkAddr_eq {mx my w h k : Nat} (hg : WalkGood mx my w h k) {t : Nat}
    (ht : t < w * h) : walkAddr mx my w t = offsets mx (t % w) + offsets my (t / w) := by
  obtain ⟨hw, hh, hndx, hndy, hper, hrest⟩ := hg
  unfold walkAddr
  rcases hper with h0 | h1
  · rw [offsets_mod mx w hw h0 t]
  · subst h1
    rw [Nat.mod_eq_of_lt (by simpa using ht)]

theorem walkAddr_bound {mx my w h k : Nat} (hg : WalkGood mx my w h k) {t : Nat}
    (ht : t < w * h) : walkAddr mx my w t + 2 ^ k ≤ w * h * 2 ^ k := by
  have e := walkAddr_eq hg ht
  have hx : offsets mx (t % w) ≤ listMax (offsetsList mx w) :=
    le_listMax (offsets_mem (Nat.mod_lt t hg.w_pos))
  have hy : offsets my (t / w) ≤ listMax (offsetsList my h) :=
    le_listMax (offsets_mem (hg.div_lt ht))
  have hb := hg.2.2.2.2.2.2.2.2
  rw [e]
  exact Nat.le_trans (Nat.add_le_add (Nat.add_le_add hx hy) (Nat.le_refl _)) hb

theorem walkAddr_align {mx my w h k : Nat} (hg : WalkGood mx my w h k) {t : Nat}
    (ht : t < w * h) : walkAddr mx my w t % 2 ^ k = 0 := by
  have e := walkAddr_eq hg ht
  have hmx : mx % 2 ^ k = 0 := hg.2.2.2.2.2.2.1
  have hmy : my % 2 ^ k = 0 := hg.2.2.2.2.2.2.2.1
  have hx := mod_pow_eq_zero_of_submask (offsets_and mx (t % w)) hmx
  have hy := mod_pow_eq_zero_of_submask (offsets_and my (t / w)) hmy
  rw [e, Nat.add_mod, hx, hy]
  simp

theorem walkAddr_inj {mx my w h k : Nat} (hg : WalkGood mx my w h k) {t1 t2 : Nat}
    (h1 : t1 < w * h) (h2 : t2 < w * h)
    (he : walkAddr mx my w t1 = walkAddr mx my w t2) : t1 = t2 := by
  have e1 := walkAddr_eq hg h1
  have e2 := walkAddr_eq hg h2
  have hq1 : t1 / w < h := hg.div_lt h1
  have hq2 : t2 / w < h := hg.div_lt h2
  obtain ⟨hw, hh, hndx, hndy, hper, hd, hrest⟩ := hg
  rw [e1, e2] at he
  obtain ⟨hex, hey⟩ := sum_components_eq hd (offsets_and mx (t1 % w))
    (offsets_and my (t1 / w)) (offsets_and mx (t2 % w)) (offsets_and my (t2 / w)) he
  have hr := offsets_inj_of_nodup hndx (Nat.mod_lt t1 hw) (Nat.mod_lt t2 hw) hex
  have hq := offsets_inj_of_nodup hndy hq1 hq2 hey
  calc t1 = w * (t1 / w) + t1 % w := (Nat.div_add_mod t1 w).symm
    _ = w * (t2 / w) + t2 % w := by rw [hr, hq]
    _ = t2 := Nat.div_add_mod t2 w

theorem walkAddrList_nodup {mx my w h k : Nat} (hg : WalkGood mx my w h k) :
    (walkAddrList mx my w h).Nodup := by
  unfold walkAddrList
  refine List.Nodup.map_on ?_ (List.nodup_range _)
  intro x hx y hy he
  exact walkAddr_inj hg (List.mem_range.mp hx) (List.mem_range.mp hy) he

theorem tileTargets_nodup (w h bpc : Nat) (hbpc : 0 < bpc) : (tileTargets w h bpc).Nodup := by
  unfold tileTargets
  refine List.Nodup.map_on ?_ (List.nodup_range _)
  intro x hx y hy he
  exact Nat.eq_of_mul_eq_mul_right hbpc he

theorem walkAddrList_perm {mx my w h k : Nat} (hg : WalkGood mx my w h k) :
    (walkAddrList mx my w h).Perm (tileTargets w h (2 ^ k)) := by
  have h2k : 0 < 2 ^ k := Nat.pow_pos (by norm_num : 0 < 2)
  have hsub : walkAddrList mx my w h ⊆ tileTargets w h (2 ^ k) := by
    intro a ha
    obtain ⟨t, ht, rfl⟩ := List.mem_map.mp ha
    have ht' := List.mem_range.mp ht
    have hb := walkAddr_bound hg ht'
    have hal := walkAddr_align hg ht'
    have hdm := Nat.div_add_mod (walkAddr mx my w t) (2 ^ k)
    rw [hal, Nat.add_zero] at hdm
    refine List.mem_map.mpr ⟨walkAddr mx my w t / 2 ^ k, List.mem_range.mpr ?_, ?_⟩
    · have hle : 2 ^ k * (walkAddr mx my w t / 2 ^ k + 1) ≤ 2 ^ k * (w * h) := by
        rw [Nat.mul_add, Nat.mul_one, hdm, Nat.mul_comm]
        exact hb
      exact Nat.lt_of_succ_le (Nat.le_of_mul_le_mul_left hle h2k)
    · rw [Nat.mul_comm]
      exact hdm
  have hnd := walkAddrList_nodup hg
  have hlen : (tileTargets w h (2 ^ k)).length ≤ (walkAddrList mx my w h).length := by
    simp [tileTargets, walkAddrList]
  exact (hnd.subperm hsub).perm_of_length_le hlen

theorem walkAddr_surj {mx my w h k : Nat} (hg : WalkGood mx my w h k) {q : Nat}
    (hq : q < w * h) : ∃ t, t < w * h ∧ walkAddr mx my w t = q * 2 ^ k := by
  have hmem : q * 2 ^ k ∈ tileTargets w h (2 ^ k) :=
    List.mem_map.mpr ⟨q, List.mem_range.mpr hq, rfl⟩
  have hmem2 : q * 2 ^ k ∈ walkAddrList mx my w h :=
    (walkAddrList_perm hg).mem_iff.mpr hmem
  obtain ⟨t, ht, he⟩ := List.mem_map.mp hmem2
  exact ⟨t, List.mem_range.mp ht, he⟩

/-! Pointwise characterization of the copy and of the two loop directions. -/

theorem copyFromSlice_spec {dest src : Buffer} {dstOff srcOff len : Nat}
    (h1 : dstOff + len ≤ dest.length) (h2 : srcOff + len ≤ src.length) :
    ∃ d, copyFromSlice dest dstOff src srcOff len = some d ∧ d.length = dest.length ∧
      ∀ p, d[p]? = if dstOff ≤ p ∧ p < dstOff + len then src[srcOff + (p - dstOff)]?
        else dest[p]? := by
  refine ⟨dest.take dstOff ++ (src.drop srcOff).take len ++ dest.drop (dstOff + len),
    ?_, ?_, ?_⟩
  · unfold copyFromSlice
    rw [if_pos ⟨h1, h2⟩]
  · simp only [List.length_append, List.length_take, List.length_drop]
    omega
  · intro p
    have lA : (dest.take dstOff).length = dstOff := by
      simp only [List.length_take]
      omega
    have lB : ((src.drop srcOff).take len).length = len := by
      simp only [List.length_take, List.length_drop]
      omega
    rcases Nat.lt_or_ge p dstOff with hp | hp
    · rw [if_neg (by omega)]
      rw [List.getElem?_append_left (by simp only [List.length_append, lA, lB]; omega),
        List.getElem?_append_left (by omega : p < (dest.take dstOff).length),
        List.getElem?_take_of_lt hp]
    · rcases Nat.lt_or_ge p (dstOff + len) with hp2 | hp2
      · rw [if_pos ⟨hp, hp2⟩]
        rw [List.getElem?_append_left (by simp only [List.length_append, lA, lB]; omega),
          List.getElem?_append_right (by omega : (dest.take dstOff).length ≤ p)]
        rw [lA, List.getElem?_take_of_lt (by omega : p - dstOff < len),
          List.getElem?_drop]
      · rw [if_neg (by omega)]
        rw [List.getElem?_append_right (by simp only [List.length_append, lA, lB]; omega)]
        simp only [List.length_append, lA, lB, List.getElem?_drop]
        congr 1
        omega

theorem innerLoop_gather (mx oy bpc : Nat) (src : Buffer) :
    ∀ (n t : Nat) (dest : Buffer),
    (t + n) * bpc ≤ dest.length →
    (∀ j, j < n → offsets mx (t + j) + oy + bpc ≤ src.length) →
    ∃ d, innerLoop mx oy src true bpc n (offsets mx t) (t * bpc) dest =
        some (offsets mx (t + n), (t + n) * bpc, d) ∧
      d.length = dest.length ∧
      (∀ j, j < n → ∀ i, i < bpc → d[(t + j) * bpc + i]? = src[offsets mx (t + j) + oy + i]?) ∧
      (∀ p, p < t * bpc ∨ (t + n) * bpc ≤ p → d[p]? = dest[p]?) := by
  intro n
  induction n with
  | zero =>
    intro t dest hdst hsrc
    exact ⟨dest, rfl, rfl, fun j hj => absurd hj (Nat.not_lt_zero j), fun p _ => rfl⟩
  | succ n ih =>
    intro t dest hdst hsrc
    have hmono : (t + 1) * bpc ≤ (t + (n + 1)) * bpc :=
      Nat.mul_le_mul_right bpc (by omega)
    have hstep : (t + 1) * bpc = t * bpc + bpc := by
      rw [Nat.add_mul, Nat.one_mul]
    have h1 : t * bpc + bpc ≤ dest.length := by omega
    have h2 : offsets mx t + oy + bpc ≤ src.length := by
      have := hsrc 0 (Nat.succ_pos n)
      simpa using this
    obtain ⟨d1, hc, hlen1, hpt1⟩ := copyFromSlice_spec h1 h2
    have hrec := ih (t + 1) d1 (by rw [hlen1]; have : t + 1 + n = t + (n + 1) := by omega
                                   rw [this]; exact hdst)
      (fun j hj => by have := hsrc (j + 1) (by omega)
                      have e : t + 1 + j = t + (j + 1) := by omega
                      rw [e]; exact this)
    obtain ⟨d, hloop, hlen, hwr, hfr⟩ := hrec
    have estep : innerLoop mx oy src true bpc (n + 1) (offsets mx t) (t * bpc) dest =
        innerLoop mx oy src true bpc n (offsets mx (t + 1)) ((t + 1) * bpc) d1 := by
      show (match copyFromSlice dest (t * bpc) src (offsets mx t + oy) bpc with
        | none => none
        | some dest1 => innerLoop mx oy src true bpc n (maskStep mx (offsets mx t))
            (t * bpc + bpc) dest1) = _
      rw [hc, hstep]
      rfl
    have efin : t + 1 + n = t + (n + 1) := by omega
    refine ⟨d, ?_, by rw [hlen, hlen1], ?_, ?_⟩
    · rw [estep, hloop, efin]
    · intro j hj i hi
      rcases Nat.eq_zero_or_pos j with rfl | hjpos
      · have hout : (t + 0) * bpc + i < (t + 1) * bpc := by
          simp only [Nat.add_zero]
          omega
        rw [hfr _ (Or.inl hout), hpt1]
        rw [if_pos (by simp only [Nat.add_zero]; omega)]
        congr 1
        simp only [Nat.add_zero]
        omega
      · obtain ⟨j', rfl⟩ : ∃ j', j = j' + 1 := ⟨j - 1, by omega⟩
        have e : t + (j' + 1) = t + 1 + j' := by omega
        rw [e]
        exact hwr j' (by omega) i hi
    · intro p hp
      have hfr2 : d[p]? = d1[p]? := by
        apply hfr
        rcases hp with hp | hp
        · exact Or.inl (by omega)
        · right
          rw [efin]
          exact hp
      rw [hfr2, hpt1]
      rw [if_neg ?_]
      rcases hp with hp | hp
      · omega
      · have : t * bpc + bpc ≤ p := by
          have := Nat.le_trans hmono hp
          omega
        omega

theorem region_eq_of_overlap {a b p bpc : Nat} (ha : a % bpc = 0) (hb : b % bpc = 0)
    (h1 : a ≤ p) (h2 : p < a + bpc) (h3 : b ≤ p) (h4 : p < b + bpc) : a = b := by
  have da := Nat.div_add_mod a bpc
  have db := Nat.div_add_mod b bpc
  rw [ha, Nat.add_zero] at da
  rw [hb, Nat.add_zero] at db
  rcases Nat.lt_trichotomy (a / bpc) (b / bpc) with hlt | heq | hgt
  · exfalso
    have hm := Nat.mul_le_mul_left bpc (Nat.succ_le_of_lt hlt)
    rw [Nat.mul_succ] at hm
    omega
  · rw [← da, ← db, heq]
  · exfalso
    have hm := Nat.mul_le_mul_left bpc (Nat.succ_le_of_lt hgt)
    rw [Nat.mul_succ] at hm
    omega

theorem innerLoop_scatter (mx oy bpc : Nat) (src : Buffer) :
    ∀ (n t : Nat) (dest : Buffer),
    (t + n) * bpc ≤ src.length →
    (∀ j, j < n → offsets mx (t + j) + oy + bpc ≤ dest.length) →
    (∀ j1 j2, j1 < n → j2 < n → j1 ≠ j2 →
      offsets mx (t + j1) + oy ≠ offsets mx (t + j2) + oy) →
    (∀ j, j < n → (offsets mx (t + j) + oy) % bpc = 0) →
    ∃ d, innerLoop mx oy src false bpc n (offsets mx t) (t * bpc) dest =
        some (offsets mx (t + n), (t + n) * bpc, d) ∧
      d.length = dest.length ∧
      (∀ j, j < n → ∀ i, i < bpc →
        d[offsets mx (t + j) + oy + i]? = src[(t + j) * bpc + i]?) ∧
      (∀ p, (∀ j, j < n → ¬(offsets mx (t + j) + oy ≤ p ∧
          p < offsets mx (t + j) + oy + bpc)) → d[p]? = dest[p]?) := by
  intro n
  induction n with
  | zero =>
    intro t dest hsrc hdst hinj halign
    exact ⟨dest, rfl, rfl, fun j hj => absurd hj (Nat.not_lt_zero j), fun p _ => rfl⟩
  | succ n ih =>
    intro t dest hsrc hdst hinj halign
    have hmono : (t + 1) * bpc ≤ (t + (n + 1)) * bpc :=
      Nat.mul_le_mul_right bpc (by omega)
    have hstep : (t + 1) * bpc = t * bpc + bpc := by
      rw [Nat.add_mul, Nat.one_mul]
    have h1 : offsets mx t + oy + bpc ≤ dest.length := by
      have := hdst 0 (Nat.succ_pos n)
      simpa using this
    have h2 : t * bpc + bpc ≤ src.length := by omega
    obtain ⟨d1, hc, hlen1, hpt1⟩ := copyFromSlice_spec h1 h2
    have hrec := ih (t + 1) d1
      (by have e : t + 1 + n = t + (n + 1) := by omega
          rw [e]; exact hsrc)
      (fun j hj => by
        have := hdst (j + 1) (by omega)
        have e : t + 1 + j = t + (j + 1) := by omega
        rw [e, hlen1]; exact this)
      (fun j1 j2 hj1 hj2 hne => by
        have e1 : t + 1 + j1 = t + (j1 + 1) := by omega
        have e2 : t + 1 + j2 = t + (j2 + 1) := by omega
        rw [e1, e2]
        exact hinj (j1 + 1) (j2 + 1) (by omega) (by omega) (by omega))
      (fun j hj => by
        have e : t + 1 + j = t + (j + 1) := by omega
        rw [e]
        exact halign (j + 1) (by omega))
    obtain ⟨d, hloop, hlen, hwr, hfr⟩ := hrec
    have estep : innerLoop mx oy src false bpc (n + 1) (offsets mx t) (t * bpc) dest =
        innerLoop mx oy src false bpc n (offsets mx (t + 1)) ((t + 1) * bpc) d1 := by
      show (match copyFromSlice dest (offsets mx t + oy) src (t * bpc) bpc with
        | none => none
        | some dest1 => innerLoop mx oy src false bpc n (maskStep mx (offsets mx t))
            (t * bpc + bpc) dest1) = _
      rw [hc, hstep]
      rfl
    have efin : t + 1 + n = t + (n + 1) := by omega
    refine ⟨d, ?_, by rw [hlen, hlen1], ?_, ?_⟩
    · rw [estep, hloop, efin]
    · intro j hj i hi
      rcases Nat.eq_zero_or_pos j with rfl | hjpos
      · have hout : ∀ j', j' < n → ¬(offsets mx (t + 1 + j') + oy ≤
            offsets mx (t + 0) + oy + i ∧
            offsets mx (t + 0) + oy + i < offsets mx (t + 1 + j') + oy + bpc) := by
          intro j' hj' hcontra
          have e : t + 1 + j' = t + (j' + 1) := by omega
          rw [e] at hcontra
          have hne := hinj 0 (j' + 1) (by omega) (by omega) (by omega)
          have ha0 := halign 0 (by omega)
          have ha1 := halign (j' + 1) (by omega)
          simp only [Nat.add_zero] at hcontra hne ha0
          exact hne (region_eq_of_overlap ha0 ha1 (Nat.le_add_right _ i)
            (by omega) hcontra.1 hcontra.2)
        rw [hfr _ hout, hpt1]
        simp only [Nat.add_zero]
        rw [if_pos (by omega)]
        congr 1
        omega
      · obtain ⟨j', rfl⟩ : ∃ j', j = j' + 1 := ⟨j - 1, by omega⟩
        have e : t + (j' + 1) = t + 1 + j' := by omega
        rw [e]
        exact hwr j' (by omega) i hi
    · intro p hp
      have hfr2 : d[p]? = d1[p]? := by
        apply hfr
        intro j' hj'
        have e : t + 1 + j' = t + (j' + 1) := by omega
        rw [e]
        exact hp (j' + 1) (by omega)
      rw [hfr2, hpt1]
      rw [if_neg ?_]
      have := hp 0 (by omega)
      simp only [Nat.add_zero] at this
      omega

theorem rowDiv {w : Nat} (hw : 0 < w) (r : Nat) {j : Nat} (hj : j < w) :
    (r * w + j) / w = r := by
  rw [Nat.add_comm, Nat.mul_comm r w, Nat.add_mul_div_left j r hw, Nat.div_eq_of_lt hj,
    Nat.zero_add]

theorem outerLoop_gather (mx my w bpc : Nat) (src : Buffer) (hw : 0 < w) :
    ∀ (n r : Nat) (dest : Buffer),
    (r + n) * w * bpc ≤ dest.length →
    (∀ t, r * w ≤ t → t < (r + n) * w →
      offsets mx t + offsets my (t / w) + bpc ≤ src.length) →
    ∃ d, outerLoop mx my w src true bpc n (offsets mx (r * w)) (offsets my r)
        (r * w * bpc) dest = some d ∧
      d.length = dest.length ∧
      (∀ t, r * w ≤ t → t < (r + n) * w → ∀ i, i < bpc →
        d[t * bpc + i]? = src[offsets mx t + offsets my (t / w) + i]?) ∧
      (∀ p, p < r * w * bpc ∨ (r + n) * w * bpc ≤ p → d[p]? = dest[p]?) := by
  intro n
  induction n with
  | zero =>
    intro r dest hdst hsrc
    refine ⟨dest, rfl, rfl, ?_, fun p _ => rfl⟩
    intro t ht1 ht2
    simp only [Nat.add_zero] at ht2
    omega
  | succ n ih =>
    intro r dest hdst hsrc
    have hrow1 : r * w + w = (r + 1) * w := by rw [Nat.add_mul, Nat.one_mul]
    have hmono1 : (r + 1) * w * bpc ≤ (r + (n + 1)) * w * bpc :=
      Nat.mul_le_mul_right bpc (Nat.mul_le_mul_right w (by omega))
    have hinner := innerLoop_gather mx (offsets my r) bpc src w (r * w) dest
      (by rw [hrow1]; exact Nat.le_trans hmono1 hdst)
      (fun j hj => by
        have h1 : r * w + j < (r + 1) * w := by rw [← hrow1]; omega
        have h2 : (r + 1) * w ≤ (r + (n + 1)) * w := Nat.mul_le_mul_right w (by omega)
        have ht := hsrc (r * w + j) (Nat.le_add_right _ j) (by omega)
        rw [rowDiv hw r hj] at ht
        exact ht)
    obtain ⟨d1, hil, hlen1, hwr1, hfr1⟩ := hinner
    have estep : outerLoop mx my w src true bpc (n + 1) (offsets mx (r * w))
        (offsets my r) (r * w * bpc) dest =
        outerLoop mx my w src true bpc n (offsets mx ((r + 1) * w)) (offsets my (r + 1))
          ((r + 1) * w * bpc) d1 := by
      show (match innerLoop mx (offsets my r) src true bpc w (offsets mx (r * w))
          (r * w * bpc) dest with
        | none => none
        | some (ox1, dst1, dest1) => outerLoop mx my w src true bpc n ox1
            (maskStep my (offsets my r)) dst1 dest1) = _
      rw [hil, hrow1]
      rfl
    have hih := ih (r + 1) d1
      (by rw [hlen1]
          have e : r + 1 + n = r + (n + 1) := by omega
          rw [e]
          exact hdst)
      (fun t ht1 ht2 => by
        refine hsrc t (Nat.le_trans (Nat.mul_le_mul_right w (by omega)) ht1) ?_
        have e : r + 1 + n = r + (n + 1) := by omega
        rw [e] at ht2
        exact ht2)
    obtain ⟨d, hol, hlen, hwr, hfr⟩ := hih
    refine ⟨d, ?_, by rw [hlen, hlen1], ?_, ?_⟩
    · rw [estep, hol]
    · intro t ht1 ht2 i hi
      rcases Nat.lt_or_ge t ((r + 1) * w) with hrow | hrow
      · obtain ⟨j, rfl⟩ : ∃ j, t = r * w + j := ⟨t - r * w, by omega⟩
        have hj : j < w := by rw [← hrow1] at hrow; omega
        have hpos : (r * w + j) * bpc + i < (r + 1) * w * bpc := by
          have hb : (r * w + j + 1) * bpc ≤ (r + 1) * w * bpc :=
            Nat.mul_le_mul_right bpc (by rw [← hrow1]; omega)
          rw [Nat.add_mul _ 1 bpc, Nat.one_mul] at hb
          omega
        rw [hfr _ (Or.inl hpos), rowDiv hw r hj]
        exact hwr1 j hj i hi
      · refine hwr t hrow ?_ i hi
        have e : r + 1 + n = r + (n + 1) := by omega
        rw [e]
        exact ht2
    · intro p hp
      have hfrp : d[p]? = d1[p]? := by
        apply hfr
        rcases hp with hp | hp
        · left
          have hmono2 : r * w * bpc ≤ (r + 1) * w * bpc :=
            Nat.mul_le_mul_right bpc (Nat.mul_le_mul_right w (by omega))
          omega
        · right
          have e : r + 1 + n = r + (n + 1) := by omega
          rw [e]
          exact hp
      rw [hfrp]
      apply hfr1
      rcases hp with hp | hp
      · exact Or.inl hp
      · right
        rw [hrow1]
        exact Nat.le_trans hmono1 hp

theorem outerLoop_scatter (mx my w bpc : Nat) (src : Buffer) (hw : 0 < w) :
    ∀ (n r : Nat) (dest : Buffer),
    (r + n) * w * bpc ≤ src.length →
    (∀ t, r * w ≤ t → t < (r + n) * w →
      offsets mx t + offsets my (t / w) + bpc ≤ dest.length) →
    (∀ t1 t2, r * w ≤ t1 → t1 < (r + n) * w → r * w ≤ t2 → t2 < (r + n) * w → t1 ≠ t2 →
      offsets mx t1 + offsets my (t1 / w) ≠ offsets mx t2 + offsets my (t2 / w)) →
    (∀ t, r * w ≤ t → t < (r + n) * w → (offsets mx t + offsets my (t / w)) % bpc = 0) →
    ∃ d, outerLoop mx my w src false bpc n (offsets mx (r * w)) (offsets my r)
        (r * w * bpc) dest = some d ∧
      d.length = dest.length ∧
      (∀ t, r * w ≤ t → t < (r + n) * w → ∀ i, i < bpc →
        d[offsets mx t + offsets my (t / w) + i]? = src[t * bpc + i]?) ∧
      (∀ p, (∀ t, r * w ≤ t → t < (r + n) * w →
          ¬(offsets mx t + offsets my (t / w) ≤ p ∧
            p < offsets mx t + offsets my (t / w) + bpc)) → d[p]? = dest[p]?) := by
  intro n
  induction n with
  | zero =>
    intro r dest hsrc hdst hinj halign
    refine ⟨dest, rfl, rfl, ?_, fun p _ => rfl⟩
    intro t ht1 ht2
    simp only [Nat.add_zero] at ht2
    omega
  | succ n ih =>
    intro r dest hsrc hdst hinj halign
    have hrow1 : r * w + w = (r + 1) * w := by rw [Nat.add_mul, Nat.one_mul]
    have hmono1 : (r + 1) * w * bpc ≤ (r + (n + 1)) * w * bpc :=
      Nat.mul_le_mul_right bpc (Nat.mul_le_mul_right w (by omega))
    have hrowmem : ∀ j, j < w → r * w ≤ r * w + j ∧ r * w + j < (r + (n + 1)) * w := by
      intro j hj
      constructor
      · exact Nat.le_add_right _ j
      · have h1 : r * w + j < (r + 1) * w := by rw [← hrow1]; omega
        have h2 : (r + 1) * w ≤ (r + (n + 1)) * w := Nat.mul_le_mul_right w (by omega)
        omega
    have hinner := innerLoop_scatter mx (offsets my r) bpc src w (r * w) dest
      (by rw [hrow1]; exact Nat.le_trans hmono1 hsrc)
      (fun j hj => by
        have ht := hdst (r * w + j) (hrowmem j hj).1 (hrowmem j hj).2
        rw [rowDiv hw r hj] at ht
        exact ht)
      (fun j1 j2 hj1 hj2 hne => by
        have ht := hinj (r * w + j1) (r * w + j2) (hrowmem j1 hj1).1 (hrowmem j1 hj1).2
          (hrowmem j2 hj2).1 (hrowmem j2 hj2).2 (by omega)
        rw [rowDiv hw r hj1, rowDiv hw r hj2] at ht
        exact ht)
      (fun j hj => by
        have ht := halign (r * w + j) (hrowmem j hj).1 (hrowmem j hj).2
        rw [rowDiv hw r hj] at ht
        exact ht)
    obtain ⟨d1, hil, hlen1, hwr1, hfr1⟩ := hinner
    have estep : outerLoop mx my w src false bpc (n + 1) (offsets mx (r * w))
        (offsets my r) (r * w * bpc) dest =
        outerLoop mx my w src false bpc n (offsets mx ((r + 1) * w)) (offsets my (r + 1))
          ((r + 1) * w * bpc) d1 := by
      show (match innerLoop mx (offsets my r) src false bpc w (offsets mx (r * w))
          (r * w * bpc) dest with
        | none => none
        | some (ox1, dst1, dest1) => outerLoop mx my w src false bpc n ox1
            (maskStep my (offsets my r)) dst1 dest1) = _
      rw [hil, hrow1]
      rfl
    have hshift : ∀ t, (r + 1) * w ≤ t → t < (r + 1 + n) * w →
        r * w ≤ t ∧ t < (r + (n + 1)) * w := by
      intro t ht1 ht2
      have e : r + 1 + n = r + (n + 1) := by omega
      rw [e] at ht2
      exact ⟨Nat.le_trans (Nat.mul_le_mul_right w (by omega)) ht1, ht2⟩
    have hih := ih (r + 1) d1
      (by have e : r + 1 + n = r + (n + 1) := by omega
          rw [e]
          exact hsrc)
      (fun t ht1 ht2 => by
        rw [hlen1]
        exact hdst t (hshift t ht1 ht2).1 (hshift t ht1 ht2).2)
      (fun t1 t2 ht1 ht2 ht3 ht4 hne =>
        hinj t1 t2 (hshift t1 ht1 ht2).1 (hshift t1 ht1 ht2).2
          (hshift t2 ht3 ht4).1 (hshift t2 ht3 ht4).2 hne)
      (fun t ht1 ht2 => halign t (hshift t ht1 ht2).1 (hshift t ht1 ht2).2)
    obtain ⟨d, hol, hlen, hwr, hfr⟩ := hih
    refine ⟨d, ?_, by rw [hlen, hlen1], ?_, ?_⟩
    · rw [estep, hol]
    · intro t ht1 ht2 i hi
      rcases Nat.lt_or_ge t ((r + 1) * w) with hrow | hrow
      · obtain ⟨j, rfl⟩ : ∃ j, t = r * w + j := ⟨t - r * w, by omega⟩
        have hj : j < w := by rw [← hrow1] at hrow; omega
        have hout : ∀ t', (r + 1) * w ≤ t' → t' < (r + 1 + n) * w →
            ¬(offsets mx t' + offsets my (t' / w) ≤
                offsets mx (r * w + j) + offsets my ((r * w + j) / w) + i ∧
              offsets mx (r * w + j) + offsets my ((r * w + j) / w) + i <
                offsets mx t' + offsets my (t' / w) + bpc) := by
          intro t' ht1' ht2' hcontra
          have hne := hinj (r * w + j) t' (hrowmem j hj).1 (hrowmem j hj).2
            (hshift t' ht1' ht2').1 (hshift t' ht1' ht2').2
            (by have : r * w + j < (r + 1) * w := by rw [← hrow1]; omega
                omega)
          have ha0 := halign (r * w + j) (hrowmem j hj).1 (hrowmem j hj).2
          have ha1 := halign t' (hshift t' ht1' ht2').1 (hshift t' ht1' ht2').2
          exact hne (region_eq_of_overlap ha0 ha1 (Nat.le_add_right _ i) (by omega)
            hcontra.1 hcontra.2)
        rw [hfr _ hout, rowDiv hw r hj]
        exact hwr1 j hj i hi
      · refine hwr t hrow ?_ i hi
        have e : r + 1 + n = r + (n + 1) := by omega
        rw [e]
        exact ht2
    · intro p hp
      have hfrp : d[p]? = d1[p]? := by
        apply hfr
        intro t ht1 ht2
        exact hp t (hshift t ht1 ht2).1 (hshift t ht1 ht2).2
      rw [hfrp]
      apply hfr1
      intro j hj
      have ht := hp (r * w + j) (hrowmem j hj).1 (hrowmem j hj).2
      rw [rowDiv hw r hj] at ht
      exact ht

theorem offsets_zero (m : Nat) : offsets m 0 = 0 := rfl

theorem gather_full {mx my w h k : Nat} (hg : WalkGood mx my w h k) (src dest : Buffer)
    (hdlen : dest.length = w * h * 2 ^ k)
    (hslen : ∀ t, t < w * h → walkAddr mx my w t + 2 ^ k ≤ src.length) :
    ∃ d, outerLoop mx my w src true (2 ^ k) h 0 0 0 dest = some d ∧
      d.length = w * h * 2 ^ k ∧
      ∀ t, t < w * h → ∀ i, i < 2 ^ k → d[t * 2 ^ k + i]? = src[walkAddr mx my w t + i]? := by
  have hw := hg.w_pos
  obtain ⟨d, hol, hlen, hwr, _⟩ := outerLoop_gather mx my w (2 ^ k) src hw h 0 dest
    (by rw [Nat.zero_add, Nat.mul_comm h w, hdlen])
    (fun t ht1 ht2 => by
      rw [Nat.zero_add, Nat.mul_comm h w] at ht2
      exact hslen t ht2)
  simp only [Nat.zero_mul, offsets_zero, Nat.zero_add] at hol hwr
  refine ⟨d, hol, by rw [hlen, hdlen], ?_⟩
  intro t ht i hi
  exact hwr t (Nat.zero_le t) (by rw [Nat.mul_comm h w]; exact ht) i hi

theorem scatter_full {mx my w h k : Nat} (hg : WalkGood mx my w h k) (src dest : Buffer)
    (hdlen : dest.length = w * h * 2 ^ k) (hslen : w * h * 2 ^ k ≤ src.length) :
    ∃ d, outerLoop mx my w src false (2 ^ k) h 0 0 0 dest = some d ∧
      d.length = w * h * 2 ^ k ∧
      ∀ t, t < w * h → ∀ i, i < 2 ^ k →
        d[walkAddr mx my w t + i]? = src[t * 2 ^ k + i]? := by
  have hw := hg.w_pos
  have hconv : ∀ t : Nat, t < h * w → t < w * h := by
    intro t ht
    rw [Nat.mul_comm h w] at ht
    exact ht
  obtain ⟨d, hol, hlen, hwr, _⟩ := outerLoop_scatter mx my w (2 ^ k) src hw h 0 dest
    (by rw [Nat.zero_add, Nat.mul_comm h w]; exact hslen)
    (fun t ht1 ht2 => by
      rw [Nat.zero_add] at ht2
      rw [hdlen]
      exact walkAddr_bound hg (hconv t ht2))
    (fun t1 t2 ht1 ht2 ht3 ht4 hne => by
      rw [Nat.zero_add] at ht2 ht4
      intro hcontra
      exact hne (walkAddr_inj hg (hconv t1 ht2) (hconv t2 ht4) hcontra))
    (fun t ht1 ht2 => by
      rw [Nat.zero_add] at ht2
      exact walkAddr_align hg (hconv t ht2))
  simp only [Nat.zero_mul, offsets_zero, Nat.zero_add] at hol hwr
  refine ⟨d, hol, by rw [hlen, hdlen], ?_⟩
  intro t ht i hi
  exact hwr t (Nat.zero_le t) (by rw [Nat.mul_comm h w]; exact ht) i hi

theorem roundtrip_swizzle_deswizzle {mx my w h k : Nat} (hg : WalkGood mx my w h k)
    (src : Buffer) (hlen : src.length = w * h * 2 ^ k) :
    ∃ y, outerLoop mx my w src false (2 ^ k) h 0 0 0
        (List.replicate (w * h * 2 ^ k) 0) = some y ∧
      y.length = w * h * 2 ^ k ∧
      outerLoop mx my w y true (2 ^ k) h 0 0 0
        (List.replicate (w * h * 2 ^ k) 0) = some src := by
  have h2k : 0 < 2 ^ k := Nat.pow_pos (by norm_num : 0 < 2)
  obtain ⟨y, hy, hylen, hywr⟩ := scatter_full hg src (List.replicate (w * h * 2 ^ k) 0)
    (List.length_replicate _ _) (Nat.le_of_eq hlen.symm)
  obtain ⟨d, hd, hdlen, hdwr⟩ := gather_full hg y (List.replicate (w * h * 2 ^ k) 0)
    (List.length_replicate _ _)
    (fun t ht => by rw [hylen]; exact walkAddr_bound hg ht)
  refine ⟨y, hy, hylen, ?_⟩
  rw [hd]
  congr 1
  apply List.ext_getElem?
  intro p
  rcases Nat.lt_or_ge p (w * h * 2 ^ k) with hp | hp
  · have ht : p / 2 ^ k < w * h := (Nat.div_lt_iff_lt_mul h2k).mpr hp
    have hi : p % 2 ^ k < 2 ^ k := Nat.mod_lt p h2k
    have hdm := Nat.div_add_mod p (2 ^ k)
    have hpe : p = p / 2 ^ k * 2 ^ k + p % 2 ^ k := by
      rw [Nat.mul_comm]
      omega
    rw [hpe, hdwr _ ht _ hi, hywr _ ht _ hi]
  · rw [List.getElem?_eq_none (by omega : d.length ≤ p),
      List.getElem?_eq_none (by omega : src.length ≤ p)]

theorem roundtrip_deswizzle_swizzle {mx my w h k : Nat} (hg : WalkGood mx my w h k)
    (src : Buffer) (hlen : src.length = w * h * 2 ^ k) :
    ∃ z, outerLoop mx my w src true (2 ^ k) h 0 0 0
        (List.replicate (w * h * 2 ^ k) 0) = some z ∧
      z.length = w * h * 2 ^ k ∧
      outerLoop mx my w z false (2 ^ k) h 0 0 0
        (List.replicate (w * h * 2 ^ k) 0) = some src := by
  have h2k : 0 < 2 ^ k := Nat.pow_pos (by norm_num : 0 < 2)
  obtain ⟨z, hz, hzlen, hzwr⟩ := gather_full hg src (List.replicate (w * h * 2 ^ k) 0)
    (List.length_replicate _ _)
    (fun t ht => by rw [hlen]; exact walkAddr_bound hg ht)
  obtain ⟨d, hd, hdlen, hdwr⟩ := scatter_full hg z (List.replicate (w * h * 2 ^ k) 0)
    (List.length_replicate _ _) (Nat.le_of_eq hzlen.symm)
  refine ⟨z, hz, hzlen, ?_⟩
  rw [hd]
  congr 1
  apply List.ext_getElem?
  intro p
  rcases Nat.lt_or_ge p (w * h * 2 ^ k) with hp | hp
  · have hq : p / 2 ^ k < w * h := (Nat.div_lt_iff_lt_mul h2k).mpr hp
    have hi : p % 2 ^ k < 2 ^ k := Nat.mod_lt p h2k
    obtain ⟨t, ht, hte⟩ := walkAddr_surj hg hq
    have hdm := Nat.div_add_mod p (2 ^ k)
    have hpe : p = walkAddr mx my w t + p % 2 ^ k := by
      rw [hte, Nat.mul_comm]
      omega
    rw [hpe, hdwr _ ht _ hi, hzwr _ ht _ hi]
  · rw [List.getElem?_eq_none (by omega : d.length ≤ p),
      List.getElem?_eq_none (by omega : src.length ≤ p)]

/-! Lemmas for the inverse-index builder. -/

theorem buildIndexMap_eq {α : Type} [DecidableEq α] :
    ∀ (l : List α) (i0 : Nat) (m : α → Option Nat) (b : α),
    buildIndexMap l i0 m b = (match lastOcc l b with
      | some j => some (i0 + j)
      | none => m b) := by
  intro l
  induction l with
  | nil => intro i0 m b; rfl
  | cons v rest ih =>
    intro i0 m b
    show buildIndexMap rest (i0 + 1) (insertMap m v i0) b = _
    rw [ih]
    cases hlo : lastOcc rest b with
    | some j =>
      show some (i0 + 1 + j) = (match lastOcc (v :: rest) b with
        | some j => some (i0 + j)
        | none => m b)
      have e : lastOcc (v :: rest) b = some (j + 1) := by
        show (match lastOcc rest b with
          | some i => some (i + 1)
          | none => if v = b then some 0 else none) = some (j + 1)
        rw [hlo]
      rw [e]
      have : i0 + 1 + j = i0 + (j + 1) := by omega
      rw [this]
    | none =>
      have e : lastOcc (v :: rest) b = if v = b then some 0 else none := by
        show (match lastOcc rest b with
          | some i => some (i + 1)
          | none => if v = b then some 0 else none) = _
        rw [hlo]
      by_cases hv : v = b
      · rw [e, if_pos hv]
        show insertMap m v i0 b = some (i0 + 0)
        unfold insertMap
        rw [if_pos hv.symm, Nat.add_zero]
      · rw [e, if_neg hv]
        show insertMap m v i0 b = m b
        unfold insertMap
        rw [if_neg (fun hc => hv hc.symm)]

theorem lastOcc_get {α : Type} [DecidableEq α] :
    ∀ {l : List α} {b : α} {j : Nat}, lastOcc l b = some j → l[j]? = some b := by
  intro l
  induction l with
  | nil => intro b j h; exact Option.noConfusion h
  | cons v rest ih =>
    intro b j h
    revert h
    show (match lastOcc rest b with
      | some i => some (i + 1)
      | none => if v = b then some 0 else none) = some j → _
    cases hlo : lastOcc rest b with
    | some i =>
      intro h
      have hj : j = i + 1 := by
        cases h
        rfl
      subst hj
      rw [List.getElem?_cons_succ]
      exact ih hlo
    | none =>
      by_cases hv : v = b
      · rw [if_pos hv]
        intro h
        have hj : j = 0 := by
          cases h
          rfl
        subst hj
        rw [List.getElem?_cons_zero]
        rw [hv]
      · rw [if_neg hv]
        intro h
        exact Option.noConfusion h

theorem lastOcc_none {α : Type} [DecidableEq α] :
    ∀ {l : List α} {b : α}, lastOcc l b = none → ∀ kk : Nat, l[kk]? ≠ some b := by
  intro l
  induction l with
  | nil =>
    intro b h kk
    simp
  | cons v rest ih =>
    intro b h kk
    revert h
    show (match lastOcc rest b with
      | some i => some (i + 1)
      | none => if v = b then some 0 else none) = none → _
    cases hlo : lastOcc rest b with
    | some i => intro h; exact Option.noConfusion h
    | none =>
      by_cases hv : v = b
      · rw [if_pos hv]
        intro h
        exact Option.noConfusion h
      · rw [if_neg hv]
        intro _
        cases kk with
        | zero =>
          rw [List.getElem?_cons_zero]
          intro hc
          exact hv (Option.some.inj hc)
        | succ kk' =>
          rw [List.getElem?_cons_succ]
          exact ih hlo kk'

theorem lastOcc_last {α : Type} [DecidableEq α] :
    ∀ {l : List α} {b : α} {j : Nat}, lastOcc l b = some j →
      ∀ kk, l[kk]? = some b → kk ≤ j := by
  intro l
  induction l with
  | nil => intro b j h; exact Option.noConfusion h
  | cons v rest ih =>
    intro b j h kk hk
    revert h
    show (match lastOcc rest b with
      | some i => some (i + 1)
      | none => if v = b then some 0 else none) = some j → _
    cases hlo : lastOcc rest b with
    | some i =>
      intro h
      have hj : j = i + 1 := by
        cases h
        rfl
      subst hj
      cases kk with
      | zero => omega
      | succ kk' =>
        rw [List.getElem?_cons_succ] at hk
        have := ih hlo kk' hk
        omega
    | none =>
      by_cases hv : v = b
      · rw [if_pos hv]
        intro h
        have hj : j = 0 := by
          cases h
          rfl
        subst hj
        cases kk with
        | zero => exact Nat.le_refl 0
        | succ kk' =>
          rw [List.getElem?_cons_succ] at hk
          exact absurd hk (lastOcc_none hlo kk')
      · rw [if_neg hv]
        intro h
        exact Option.noConfusion h

/-! Totality of the mask generators on their respective domains. -/

theorem bitsAux_pos (fuel n : Nat) (h : 1 ≤ n) : 1 ≤ bitsAux (fuel + 1) n := by
  show 1 ≤ (if n = 0 then 0 else bitsAux fuel (n / 2) + 1)
  rw [if_neg (by omega)]
  omega

theorem one_le_bits {n : Nat} (h : 1 ≤ n) : 1 ≤ bits n := bitsAux_pos 63 n h

theorem two_le_bits {n : Nat} (h : 2 ≤ n) : 2 ≤ bits n := by
  show 2 ≤ bitsAux (63 + 1) n
  show 2 ≤ (if n = 0 then 0 else bitsAux 63 (n / 2) + 1)
  rw [if_neg (by omega)]
  have h1 : 1 ≤ bitsAux 63 (n / 2) := bitsAux_pos 62 (n / 2) (by omega)
  omega

theorem shrChecked_some {s : Nat} (a : Nat) (h : s < 32) :
    shrChecked a s = some (a >>> s) := by
  unfold shrChecked
  rw [if_pos h]

theorem subChecked_some {a b : Nat} (h : b ≤ a) : subChecked a b = some (a - b) := by
  unfold subChecked
  rw [if_pos h]

theorem swizzle_x_16_isSome {w h : Nat} (hw : 1 ≤ w) (hh : 1 ≤ h) :
    (swizzle_x_16 w h).isSome = true := by
  unfold swizzle_x_16
  by_cases h2 : w ≤ 2
  · rw [if_pos h2]
    rfl
  · rw [if_neg h2]
    have hb2 : 2 ≤ bits w := two_le_bits (by omega)
    have hb1 : 1 ≤ bits h := one_le_bits hh
    rw [shrChecked_some 0xFFFFFFFF (by unfold leading_zeros; omega),
      subChecked_some (by unfold leading_zeros; omega)]
    rfl

theorem swizzle_y_16_isSome {w h : Nat} (hh : 1 ≤ h) :
    (swizzle_y_16 w h).isSome = true := by
  unfold swizzle_y_16
  by_cases h2 : h ≤ 2
  · rw [if_pos h2]
    rfl
  · rw [if_neg h2]
    have hb2 : 2 ≤ bits h := two_le_bits (by omega)
    rw [shrChecked_some 0xFFFFFFFF (by unfold leading_zeros; omega)]
    rfl

theorem swizzle_x_8_isSome {w h : Nat} (hw : 2 ≤ w) (hh : 1 ≤ h) :
    (swizzle_x_8 w h).isSome = true := by
  unfold swizzle_x_8
  have hb2 : 2 ≤ bits w := two_le_bits hw
  have hb1 : 1 ≤ bits h := one_le_bits hh
  rw [shrChecked_some 0xFFFFFFFF (by unfold leading_zeros; omega),
    subChecked_some (by unfold leading_zeros; omega)]
  rfl

theorem swizzle_y_8_isSome {w h : Nat} (hh : 2 ≤ h) :
    (swizzle_y_8 w h).isSome = true := by
  unfold swizzle_y_8
  have hb2 : 2 ≤ bits h := two_le_bits hh
  rw [shrChecked_some 0xFFFFFFFF (by unfold leading_zeros; omega)]
  rfl

theorem swizzle_x_8_one (h : Nat) : swizzle_x_8 1 h = none := rfl

theorem swizzle_y_8_one (w : Nat) : swizzle_y_8 w 1 = none := rfl

/-! Unfolding lemmas relating the data paths to the mask walk. -/

theorem swizzle_data_bc3 (x : Buffer) (width height mx my : Nat)
    (hmx : swizzle_x_16 (u32 (width / 4)) (u32 (height / 4)) = some mx)
    (hmy : swizzle_y_16 (u32 (width / 4)) (u32 (height / 4)) = some my) :
    swizzle_data x width height .Bc3 =
      outerLoop mx my (width / 4) x false 16 (height / 4) 0 0 0
        (List.replicate (width / 4 * (height / 4) * 16) 0) := by
  have e : swizzle_data x width height .Bc3 =
      Option.bind (swizzle_x_16 (u32 (width / 4)) (u32 (height / 4))) (fun x_mask =>
        Option.bind (swizzle_y_16 (u32 (width / 4)) (u32 (height / 4))) (fun y_mask =>
          outerLoop x_mask y_mask (width / 4) x false 16 (height / 4) 0 0 0
            (List.replicate (width / 4 * (height / 4) * 16) 0))) := rfl
  rw [e, hmx, Option.some_bind, hmy, Option.some_bind]

theorem deswizzle_data_bc3 (x : Buffer) (width height mx my : Nat)
    (hmx : swizzle_x_16 (u32 (width / 4)) (u32 (height / 4)) = some mx)
    (hmy : swizzle_y_16 (u32 (width / 4)) (u32 (height / 4)) = some my) :
    deswizzle_data x width height .Bc3 =
      outerLoop mx my (width / 4) x true 16 (height / 4) 0 0 0
        (List.replicate (width / 4 * (height / 4) * 16) 0) := by
  have e : deswizzle_data x width height .Bc3 =
      Option.bind (swizzle_x_16 (u32 (width / 4)) (u32 (height / 4))) (fun x_mask =>
        Option.bind (swizzle_y_16 (u32 (width / 4)) (u32 (height / 4))) (fun y_mask =>
          outerLoop x_mask y_mask (width / 4) x true 16 (height / 4) 0 0 0
            (List.replicate (width / 4 * (height / 4) * 16) 0))) := rfl
  rw [e, hmx, Option.some_bind, hmy, Option.some_bind]

theorem swizzle_data_bc7 (x : Buffer) (width height mx my : Nat)
    (hmx : swizzle_x_16 (u32 (width / 4)) (u32 (height / 4)) = some mx)
    (hmy : swizzle_y_16 (u32 (width / 4)) (u32 (height / 4)) = some my) :
    swizzle_data x width height .Bc7 =
      outerLoop mx my (width / 4) x false 16 (height / 4) 0 0 0
        (List.replicate (width / 4 * (height / 4) * 16) 0) := by
  have e : swizzle_data x width height .Bc7 =
      Option.bind (swizzle_x_16 (u32 (width / 4)) (u32 (height / 4))) (fun x_mask =>
        Option.bind (swizzle_y_16 (u32 (width / 4)) (u32 (height / 4))) (fun y_mask =>
          outerLoop x_mask y_mask (width / 4) x false 16 (height / 4) 0 0 0
            (List.replicate (width / 4 * (height / 4) * 16) 0))) := rfl
  rw [e, hmx, Option.some_bind, hmy, Option.some_bind]

theorem deswizzle_data_bc7 (x : Buffer) (width height mx my : Nat)
    (hmx : swizzle_x_16 (u32 (width / 4)) (u32 (height / 4)) = some mx)
    (hmy : swizzle_y_16 (u32 (width / 4)) (u32 (height / 4)) = some my) :
    deswizzle_data x width height .Bc7 =
      outerLoop mx my (width / 4) x true 16 (height / 4) 0 0 0
        (List.replicate (width / 4 * (height / 4) * 16) 0) := by
  have e : deswizzle_data x width height .Bc7 =
      Option.bind (swizzle_x_16 (u32 (width / 4)) (u32 (height / 4))) (fun x_mask =>
        Option.bind (swizzle_y_16 (u32 (width / 4)) (u32 (height / 4))) (fun y_mask =>
          outerLoop x_mask y_mask (width / 4) x true 16 (height / 4) 0 0 0
            (List.replicate (width / 4 * (height / 4) * 16) 0))) := rfl
  rw [e, hmx, Option.some_bind, hmy, Option.some_bind]

theorem swizzle_data_bc1 (x : Buffer) (width height mx my : Nat)
    (hmx : swizzle_x_8 (u32 (width / 4)) (u32 (height / 4)) = some mx)
    (hmy : swizzle_y_8 (u32 (width / 4)) (u32 (height / 4)) = some my) :
    swizzle_data x width height .Bc1 =
      outerLoop mx my (width / 4) x false 8 (height / 4) 0 0 0
        (List.replicate (width / 4 * (height / 4) * 8) 0) := by
  have e : swizzle_data x width height .Bc1 =
      Option.bind (swizzle_x_8 (u32 (width / 4)) (u32 (height / 4))) (fun x_mask =>
        Option.bind (swizzle_y_8 (u32 (width / 4)) (u32 (height / 4))) (fun y_mask =>
          outerLoop x_mask y_mask (width / 4) x false 8 (height / 4) 0 0 0
            (List.replicate (width / 4 * (height / 4) * 8) 0))) := rfl
  rw [e, hmx, Option.some_bind, hmy, Option.some_bind]

theorem deswizzle_data_bc1 (x : Buffer) (width height mx my : Nat)
    (hmx : swizzle_x_8 (u32 (width / 4)) (u32 (height / 4)) = some mx)
    (hmy : swizzle_y_8 (u32 (width / 4)) (u32 (height / 4)) = some my) :
    deswizzle_data x width height .Bc1 =
      outerLoop mx my (width / 4) x true 8 (height / 4) 0 0 0
        (List.replicate (width / 4 * (height / 4) * 8) 0) := by
  have e : deswizzle_data x width height .Bc1 =
      Option.bind (swizzle_x_8 (u32 (width / 4)) (u32 (height / 4))) (fun x_mask =>
        Option.bind (swizzle_y_8 (u32 (width / 4)) (u32 (height / 4))) (fun y_mask =>
          outerLoop x_mask y_mask (width / 4) x true 8 (height / 4) 0 0 0
            (List.replicate (width / 4 * (height / 4) * 8) 0))) := rfl
  rw [e, hmx, Option.some_bind, hmy, Option.some_bind]

theorem bc16_roundtrip (n W mx my : Nat) (hn : n / 4 = W)
    (hmx : swizzle_x_16 (u32 W) (u32 W) = some mx)
    (hmy : swizzle_y_16 (u32 W) (u32 W) = some my)
    (hg : WalkGood mx my W W 4) (fmt : ImageFormat)
    (hf : fmt = ImageFormat.Bc3 ∨ fmt = ImageFormat.Bc7) (x : Buffer)
    (hx : x.length = W * W * 16) :
    (∃ y, swizzle_data x n n fmt = some y ∧ deswizzle_data y n n fmt = some x) ∧
    (∃ z, deswizzle_data x n n fmt = some z ∧ swizzle_data z n n fmt = some x) := by
  subst hn
  have e16 : (2 : Nat) ^ 4 = 16 := by norm_num
  obtain ⟨y, hy, hylen, hyback⟩ := roundtrip_swizzle_deswizzle hg x (by rw [hx, e16])
  obtain ⟨z, hz, hzlen, hzback⟩ := roundtrip_deswizzle_swizzle hg x (by rw [hx, e16])
  rw [e16] at hy hyback hz hzback
  rcases hf with rfl | rfl
  · exact ⟨⟨y, by rw [swizzle_data_bc3 x n n mx my hmx hmy]; exact hy,
      by rw [deswizzle_data_bc3 y n n mx my hmx hmy]; exact hyback⟩,
      ⟨z, by rw [deswizzle_data_bc3 x n n mx my hmx hmy]; exact hz,
      by rw [swizzle_data_bc3 z n n mx my hmx hmy]; exact hzback⟩⟩
  · exact ⟨⟨y, by rw [swizzle_data_bc7 x n n mx my hmx hmy]; exact hy,
      by rw [deswizzle_data_bc7 y n n mx my hmx hmy]; exact hyback⟩,
      ⟨z, by rw [deswizzle_data_bc7 x n n mx my hmx hmy]; exact hz,
      by rw [swizzle_data_bc7 z n n mx my hmx hmy]; exact hzback⟩⟩

theorem bc1_roundtrip (n W mx my : Nat) (hn : n / 4 = W)
    (hmx : swizzle_x_8 (u32 W) (u32 W) = some mx)
    (hmy : swizzle_y_8 (u32 W) (u32 W) = some my)
    (hg : WalkGood mx my W W 3) (x : Buffer) (hx : x.length = W * W * 8) :
    (∃ y, swizzle_data x n n ImageFormat.Bc1 = some y ∧
      deswizzle_data y n n ImageFormat.Bc1 = some x) ∧
    (∃ z, deswizzle_data x n n ImageFormat.Bc1 = some z ∧
      swizzle_data z n n ImageFormat.Bc1 = some x) := by
  subst hn
  have e8 : (2 : Nat) ^ 3 = 8 := by norm_num
  obtain ⟨y, hy, hylen, hyback⟩ := roundtrip_swizzle_deswizzle hg x (by rw [hx, e8])
  obtain ⟨z, hz, hzlen, hzback⟩ := roundtrip_deswizzle_swizzle hg x (by rw [hx, e8])
  rw [e8] at hy hyback hz hzback
  exact ⟨⟨y, by rw [swizzle_data_bc1 x n n mx my hmx hmy]; exact hy,
    by rw [deswizzle_data_bc1 y n n mx my hmx hmy]; exact hyback⟩,
    ⟨z, by rw [deswizzle_data_bc1 x n n mx my hmx hmy]; exact hz,
    by rw [swizzle_data_bc1 z n n mx my hmx hmy]; exact hzback⟩⟩

theorem walkAddrList_perm_bpc (k bpc : Nat) {mx my w h : Nat} (hg : WalkGood mx my w h k)
    (hb : bpc = 2 ^ k) : (walkAddrList mx my w h).Perm (tileTargets w h bpc) := by
  rw [hb]
  exact walkAddrList_perm hg

/-! The claims. -/

/-- C1, counterexample: the round-trip `deswizzle_data ∘ swizzle_data = id` fails
for the supported format `Rgba8` at 8×8 pixels: `swizzle_data` ignores its input
and returns the all-zero buffer, so a buffer of ones does not survive. -/
theorem c1_counterexample :
    swizzle_data (List.replicate 16 1) 8 8 ImageFormat.Rgba8 = some (List.replicate 16 0) ∧
    deswizzle_data (List.replicate 16 0) 8 8 ImageFormat.Rgba8 =
      some (List.replicate 16 0) ∧
    List.replicate 16 0 ≠ List.replicate 16 1 :=
  ⟨rfl, rfl, by decide⟩

/-- C1, amended: the round-trip laws `deswizzle_data (swizzle_data x) = x` and
`swizzle_data (deswizzle_data x) = x` hold for every buffer of the expected
size for `Bc3`/`Bc7` at square pixel sizes 4, 8, 32, 64, 128, 256, 512, 1024
(16×16 px fails: the mask pair overruns the buffer), and for `Bc1` at square
pixel sizes 8 to 512 (4 px panics in the mask generator, 1024 px revisits
offsets); `Rgba8` returns a zero buffer and `RgbaF32` overruns its output, so
neither round-trips.  In particular deswizzling a 128×128 BC7 buffer of 16384
bytes and then swizzling it returns the original buffer bit-for-bit. -/
theorem c1_roundtrip_amended :
    (∀ n, n ∈ [4, 8, 32, 64, 128, 256, 512, 1024] → ∀ fmt : ImageFormat,
      fmt = ImageFormat.Bc3 ∨ fmt = ImageFormat.Bc7 → ∀ x : Buffer,
      x.length = n / 4 * (n / 4) * 16 →
      (∃ y, swizzle_data x n n fmt = some y ∧ deswizzle_data y n n fmt = some x) ∧
      (∃ z, deswizzle_data x n n fmt = some z ∧ swizzle_data z n n fmt = some x)) ∧
    (∀ n, n ∈ [8, 16, 32, 64, 128, 256, 512] → ∀ x : Buffer,
      x.length = n / 4 * (n / 4) * 8 →
      (∃ y, swizzle_data x n n ImageFormat.Bc1 = some y ∧
        deswizzle_data y n n ImageFormat.Bc1 = some x) ∧
      (∃ z, deswizzle_data x n n ImageFormat.Bc1 = some z ∧
        swizzle_data z n n ImageFormat.Bc1 = some x)) := by
  constructor
  · intro n hn
    fin_cases hn
    · exact bc16_roundtrip 4 1 16 32 rfl rfl rfl (by decide)
    · exact bc16_roundtrip 8 2 16 32 rfl rfl rfl (by decide)
    · exact bc16_roundtrip 32 8 800 208 rfl rfl rfl (by decide)
    · exact bc16_roundtrip 64 16 3360 720 rfl rfl rfl (by decide)
    · exact bc16_roundtrip 128 32 14624 1744 rfl rfl rfl (by decide)
    · exact bc16_roundtrip 256 64 61728 3792 rfl rfl rfl (by decide)
    · exact bc16_roundtrip 512 128 254240 7888 rfl rfl rfl (by decide)
    · exact bc16_roundtrip 1024 256 516384 532176 rfl rfl rfl (by decide)
  · intro n hn
    fin_cases hn
    · exact bc1_roundtrip 8 2 8 16 rfl rfl rfl (by decide)
    · exact bc1_roundtrip 16 4 40 80 rfl rfl rfl (by decide)
    · exact bc1_roundtrip 32 8 296 208 rfl rfl rfl (by decide)
    · exact bc1_roundtrip 64 16 1320 720 rfl rfl rfl (by decide)
    · exact bc1_roundtrip 128 32 6440 1744 rfl rfl rfl (by decide)
    · exact bc1_roundtrip 256 64 28968 3792 rfl rfl rfl (by decide)
    · exact bc1_roundtrip 512 128 123176 7888 rfl rfl rfl (by decide)

/-- C1, witness: the amended round-trip applied to the concrete all-nines
64-byte buffer for BC7 at 8×8 pixels. -/
theorem c1_witness :
    (∃ y, swizzle_data (List.replicate 64 9) 8 8 ImageFormat.Bc7 = some y ∧
      deswizzle_data y 8 8 ImageFormat.Bc7 = some (List.replicate 64 9)) ∧
    (∃ z, deswizzle_data (List.replicate 64 9) 8 8 ImageFormat.Bc7 = some z ∧
      swizzle_data z 8 8 ImageFormat.Bc7 = some (List.replicate 64 9)) :=
  c1_roundtrip_amended.1 8 (by decide) ImageFormat.Bc7 (Or.inr rfl)
    (List.replicate 64 9) (by decide)

/-- C2, counterexample: mask disjointness fails inside the claimed domain.
At the 4×1 tile grid (16×4 pixels, 16-byte tiles) both masks contain bit 5;
at one tile the 8-byte generator panics on a shift of 32 and produces no mask
at all; and at the 1024×1024 tile grid (RgbaF32 at 1024×1024 pixels) the two
16-byte masks share bit 19. -/
theorem c2_counterexample :
    (swizzle_x_16 4 1 = some 288 ∧ swizzle_y_16 4 1 = some 32 ∧ 288 &&& 32 ≠ 0) ∧
    swizzle_x_8 1 1 = none ∧
    (swizzle_x_16 1024 1024 = some 2089248 ∧ swizzle_y_16 1024 1024 = some 532176 ∧
      2089248 &&& 532176 ≠ 0) := by decide

/-- C2, amended: the generated axis masks are disjoint on the power-of-two tile
grids up to 256 where both generators succeed and the grid is not skewed across
the `≤ 2` short-circuit: for the 16-byte variant whenever both dimensions are
at most 2 or both are at least 4, and for the 8-byte variant whenever both
dimensions are at least 2. -/
theorem c2_disjoint_amended :
    (∀ w, w ∈ [1, 2, 4, 8, 16, 32, 64, 128, 256] → ∀ h,
      h ∈ [1, 2, 4, 8, 16, 32, 64, 128, 256] →
      ((w ≤ 2 ∧ h ≤ 2) ∨ (4 ≤ w ∧ 4 ≤ h)) →
      ∃ mx my, swizzle_x_16 w h = some mx ∧ swizzle_y_16 w h = some my ∧
        mx &&& my = 0) ∧
    (∀ w, w ∈ [2, 4, 8, 16, 32, 64, 128, 256] → ∀ h,
      h ∈ [2, 4, 8, 16, 32, 64, 128, 256] →
      ∃ mx my, swizzle_x_8 w h = some mx ∧ swizzle_y_8 w h = some my ∧
        mx &&& my = 0) := by
  constructor
  · intro w hw h hh hcond
    fin_cases hw <;> fin_cases hh <;>
      first
        | exact absurd hcond (by decide)
        | exact ⟨_, _, rfl, rfl, by decide⟩
  · intro w hw h hh
    fin_cases hw <;> fin_cases hh <;> exact ⟨_, _, rfl, rfl, by decide⟩

/-- C2, witness: the amended disjointness applied at the 4×4 tile grid. -/
theorem c2_witness :
    ∃ mx my, swizzle_x_16 4 4 = some mx ∧ swizzle_y_16 4 4 = some my ∧ mx &&& my = 0 :=
  c2_disjoint_amended.1 4 (by decide) 4 (by decide) (by decide)

/-- C3, counterexample: the walk of the 8-byte y-mask at 256 tiles of height
(1024 pixels) is not pairwise distinct over `height_in_tiles` steps: the mask
has only seven set bits, so the sequence returns to zero after 128 of the 256
steps. -/
theorem c3_counterexample :
    swizzle_y_8 2 256 = some 7888 ∧ offsets 7888 128 = offsets 7888 0 ∧
    (128 : Nat) ≠ 0 ∧ 128 < 256 := by decide

/-- C3, amended: the walk values always stay inside the mask's bit lanes, and
on the square grids on which the generators produce full-rank masks (16-byte:
2, 8, 16, 32, 64, 128, 256 tiles; 8-byte: 2 to 128 tiles) the per-axis walks
are pairwise distinct and return to zero after one period, and the combined
map `(i, j) ↦ ox(j) + oy(i)` of `swizzle_experimental` is a bijection onto the
tile-aligned byte offsets of the buffer. -/
theorem c3_walk_amended :
    (∀ m n, offsets m n &&& m = offsets m n) ∧
    (∀ W, W ∈ [2, 8, 16, 32, 64, 128, 256] → ∃ mx my,
      swizzle_x_16 W W = some mx ∧ swizzle_y_16 W W = some my ∧
      (offsetsList mx W).Nodup ∧ (offsetsList my W).Nodup ∧
      offsets mx W = 0 ∧ offsets my W = 0 ∧
      (walkAddrList mx my W W).Perm (tileTargets W W 16)) ∧
    (∀ W, W ∈ [2, 4, 8, 16, 32, 64, 128] → ∃ mx my,
      swizzle_x_8 W W = some mx ∧ swizzle_y_8 W W = some my ∧
      (offsetsList mx W).Nodup ∧ (offsetsList my W).Nodup ∧
      offsets mx W = 0 ∧ offsets my W = 0 ∧
      (walkAddrList mx my W W).Perm (tileTargets W W 8)) := by
  refine ⟨offsets_and, ?_, ?_⟩
  · intro W hW
    fin_cases hW
    · exact ⟨16, 32, rfl, rfl, by decide, by decide, by decide, by decide,
        walkAddrList_perm_bpc 4 16 (by decide) (by norm_num)⟩
    · exact ⟨800, 208, rfl, rfl, by decide, by decide, by decide, by decide,
        walkAddrList_perm_bpc 4 16 (by decide) (by norm_num)⟩
    · exact ⟨3360, 720, rfl, rfl, by decide, by decide, by decide, by decide,
        walkAddrList_perm_bpc 4 16 (by decide) (by norm_num)⟩
    · exact ⟨14624, 1744, rfl, rfl, by decide, by decide, by decide, by decide,
        walkAddrList_perm_bpc 4 16 (by decide) (by norm_num)⟩
    · exact ⟨61728, 3792, rfl, rfl, by decide, by decide, by decide, by decide,
        walkAddrList_perm_bpc 4 16 (by decide) (by norm_num)⟩
    · exact ⟨254240, 7888, rfl, rfl, by decide, by decide, by decide, by decide,
        walkAddrList_perm_bpc 4 16 (by decide) (by norm_num)⟩
    · exact ⟨516384, 532176, rfl, rfl, by decide, by decide, by decide, by decide,
        walkAddrList_perm_bpc 4 16 (by decide) (by norm_num)⟩
  · intro W hW
    fin_cases hW
    · exact ⟨8, 16, rfl, rfl, by decide, by decide, by decide, by decide,
        walkAddrList_perm_bpc 3 8 (by decide) (by norm_num)⟩
    · exact ⟨40, 80, rfl, rfl, by decide, by decide, by decide, by decide,
        walkAddrList_perm_bpc 3 8 (by decide) (by norm_num)⟩
    · exact ⟨296, 208, rfl, rfl, by decide, by decide, by decide, by decide,
        walkAddrList_perm_bpc 3 8 (by decide) (by norm_num)⟩
    · exact ⟨1320, 720, rfl, rfl, by decide, by decide, by decide, by decide,
        walkAddrList_perm_bpc 3 8 (by decide) (by norm_num)⟩
    · exact ⟨6440, 1744, rfl, rfl, by decide, by decide, by decide, by decide,
        walkAddrList_perm_bpc 3 8 (by decide) (by norm_num)⟩
    · exact ⟨28968, 3792, rfl, rfl, by decide, by decide, by decide, by decide,
        walkAddrList_perm_bpc 3 8 (by decide) (by norm_num)⟩
    · exact ⟨123176, 7888, rfl, rfl, by decide, by decide, by decide, by decide,
        walkAddrList_perm_bpc 3 8 (by decide) (by norm_num)⟩

/-- C3, witness: the amended walk bijection applied at the 8×8 tile grid with
16-byte tiles. -/
theorem c3_witness :
    ∃ mx my, swizzle_x_16 8 8 = some mx ∧ swizzle_y_16 8 8 = some my ∧
      (offsetsList mx 8).Nodup ∧ (offsetsList my 8).Nodup ∧
      offsets mx 8 = 0 ∧ offsets my 8 = 0 ∧
      (walkAddrList mx my 8 8).Perm (tileTargets 8 8 16) :=
  c3_walk_amended.2.1 8 (by decide)

/-- C4, counterexample: the coverage identity `(Mx | My) + bytes_per_tile =
total_buffer_size` fails at the 4×4 tile grid of the 16-byte variant (16×16
pixels): the masks cover bits 4, 5, 6 and 8 with a hole at bit 7, so the sum
exceeds the buffer size 256. -/
theorem c4_counterexample :
    swizzle_x_16 4 4 = some 288 ∧ swizzle_y_16 4 4 = some 80 ∧
    (288 ||| 80) + 16 ≠ 4 * 4 * 16 := by decide

/-- C4, amended: the coverage identity `(Mx | My) + bytes_per_tile =
width_in_tiles * height_in_tiles * bytes_per_tile` holds on the square
power-of-two grids 2, 8, 16, 32, 64, 128, 256 for the 16-byte variant and
2 to 128 for the 8-byte variant; it fails at 16-byte grids 1 and 4 and at
many skewed grids. -/
theorem c4_coverage_amended :
    (∀ W, W ∈ [2, 8, 16, 32, 64, 128, 256] → ∃ mx my, swizzle_x_16 W W = some mx ∧
      swizzle_y_16 W W = some my ∧ (mx ||| my) + 16 = W * W * 16) ∧
    (∀ W, W ∈ [2, 4, 8, 16, 32, 64, 128] → ∃ mx my, swizzle_x_8 W W = some mx ∧
      swizzle_y_8 W W = some my ∧ (mx ||| my) + 8 = W * W * 8) := by
  constructor <;> intro W hW <;> fin_cases hW <;> exact ⟨_, _, rfl, rfl, by decide⟩

/-- C4, witness: the amended coverage identity applied at the 8×8 tile grid of
the 16-byte variant. -/
theorem c4_witness :
    ∃ mx my, swizzle_x_16 8 8 = some mx ∧ swizzle_y_16 8 8 = some my ∧
      (mx ||| my) + 16 = 8 * 8 * 16 :=
  c4_coverage_amended.1 8 (by decide)

/-- C5, counterexample: the spec's closed form for `swizzle_x_8` (with the
fourth term masked by `~3`) disagrees with the source at `(w, h) = (8, 2)`:
the spec formula yields `0b101101000 = 360` while the code yields
`0b100101000 = 296`, because the code masks the fourth term with `!0 << 3`. -/
theorem c5_counterexample :
    specX8ClosedForm 8 2 = some 360 ∧ swizzle_x_8 8 2 = some 296 ∧
    specX8ClosedForm 8 2 ≠ swizzle_x_8 8 2 := by decide

/-- C5, amended: with the fourth term corrected from `x & ~3` to `x & ~7`, the
closed form agrees with `swizzle_x_8` on every input (including all panics). -/
theorem c5_closed_form_amended :
    ∀ w h : Nat, specX8ClosedFormAmended w h = swizzle_x_8 w h :=
  fun _ _ => rfl

/-- C6, counterexample: with the arguments read as tile-grid dimensions as the
claim states, the generators do not return the claimed values: at 256×256
tiles the 16-byte masks are `0b1111110000100100000` and
`0b10000001111011010000`, and at 32×32 tiles the 8-byte masks are
`0b1100100101000` and `0b11011010000`. -/
theorem c6_counterexample :
    swizzle_x_16 256 256 = some 0b1111110000100100000 ∧
    swizzle_y_16 256 256 = some 0b10000001111011010000 ∧
    swizzle_x_8 32 32 = some 0b1100100101000 ∧
    swizzle_y_8 32 32 = some 0b11011010000 ∧
    (0b1111110000100100000 ≠ 0b111110000100100000 ∧
      0b10000001111011010000 ≠ 0b111011010000 ∧
      0b1100100101000 ≠ 0b100101000 ∧ 0b11011010000 ≠ 0b11010000) := by decide

/-- C6, amended: the claimed mask values are produced at other arguments:
`0b111110000100100000` is the 16-byte x-mask at 128×128 tiles (512×512
pixels), `0b111011010000` the 16-byte y-mask at 64×64 tiles (256×256 pixels),
and the 8-byte values arise at 8×8 tiles (32×32 pixels). -/
theorem c6_masks_amended :
    swizzle_x_16 128 128 = some 0b111110000100100000 ∧
    swizzle_y_16 64 64 = some 0b111011010000 ∧
    swizzle_x_8 8 8 = some 0b100101000 ∧
    swizzle_y_8 8 8 = some 0b11010000 := by decide

/-- C7: for the `Rgba8` format both runtime paths are no-ops: for every input
buffer and dimensions they read nothing from the input and return the all-zero
buffer of length `(width / 4) * (height / 4) * 4`. -/
theorem c7_rgba8_noop :
    ∀ (input : Buffer) (w h : Nat),
      swizzle_data input w h ImageFormat.Rgba8 =
        some (List.replicate (w / 4 * (h / 4) * 4) 0) ∧
      deswizzle_data input w h ImageFormat.Rgba8 =
        some (List.replicate (w / 4 * (h / 4) * 4) 0) :=
  fun _ _ _ => ⟨rfl, rfl⟩

/-- C8: `create_mip_deswizzle_lut` returns a table of the length of
`deswizzled` in which entry `i` is the index of the last occurrence in
`linear` of the block `deswizzled[i]` when it occurs, and the sentinel `-1`
when it does not; absence is never an error. -/
theorem c8_lut_last_occurrence (α : Type) [DecidableEq α] (linear deswizzled : List α) :
    (create_mip_deswizzle_lut linear deswizzled).length = deswizzled.length ∧
    ∀ i : Nat, ∀ b, deswizzled[i]? = some b →
      ((∃ j : Nat, (create_mip_deswizzle_lut linear deswizzled)[i]? = some ((j : Int)) ∧
        linear[j]? = some b ∧ ∀ kk : Nat, linear[kk]? = some b → kk ≤ j) ∨
       ((∀ kk : Nat, linear[kk]? ≠ some b) ∧
        (create_mip_deswizzle_lut linear deswizzled)[i]? = some (-1))) := by
  constructor
  · simp [create_mip_deswizzle_lut]
  · intro i b hb
    have hl : (create_mip_deswizzle_lut linear deswizzled)[i]? =
        some (match buildIndexMap linear 0 (fun _ => none) b with
          | some j => (j : Int)
          | none => -1) := by
      simp only [create_mip_deswizzle_lut, List.getElem?_map, hb]
      rfl
    rw [buildIndexMap_eq] at hl
    cases hlo : lastOcc linear b with
    | some j =>
      rw [hlo] at hl
      left
      refine ⟨j, ?_, lastOcc_get hlo, lastOcc_last hlo⟩
      rw [hl]
      norm_num
    | none =>
      rw [hlo] at hl
      right
      exact ⟨lastOcc_none hlo, hl⟩

/-- C8, witness: the LUT property applied to the concrete probe `[5, 7, 5]`
and reference `[5, 9]`; the duplicate block 5 resolves to its last index 2. -/
theorem c8_witness :
    (∃ j : Nat, (create_mip_deswizzle_lut [5, 7, 5] [5, 9])[0]? = some ((j : Int)) ∧
      ([5, 7, 5] : List Nat)[j]? = some 5 ∧
      ∀ kk : Nat, ([5, 7, 5] : List Nat)[kk]? = some 5 → kk ≤ j) ∨
    ((∀ kk : Nat, ([5, 7, 5] : List Nat)[kk]? ≠ some 5) ∧
      (create_mip_deswizzle_lut [5, 7, 5] [5, 9])[0]? = some (-1)) :=
  (c8_lut_last_occurrence Nat [5, 7, 5] [5, 9]).2 0 5 (by decide)

/-- C9, counterexample: `swizzle_experimental` does not validate buffer
lengths: with a source of 32 bytes where 16 are expected for a 1×1 grid of
16-byte tiles, the walk succeeds and copies the first tile instead of failing
with an `InvalidBuffer` error (no such error exists in the code). -/
theorem c9_counterexample :
    swizzle_experimental swizzle_x_16 swizzle_y_16 1 1 (List.replicate 32 7)
      (List.replicate 16 0) true 16 = some (List.replicate 16 7) ∧
    (List.replicate 32 7 : Buffer).length ≠ 1 * 1 * 16 := by decide

/-- C9, amended: the mask walker performs no length validation at all:
oversized buffers are silently accepted and processed, while undersized
buffers make a slice copy go out of bounds, which is an indexing panic rather
than a distinguished `InvalidBuffer` error. -/
theorem c9_no_validation_amended :
    swizzle_experimental swizzle_x_16 swizzle_y_16 1 1 (List.replicate 32 7)
      (List.replicate 16 0) true 16 = some (List.replicate 16 7) ∧
    swizzle_experimental swizzle_x_16 swizzle_y_16 1 1 (List.replicate 8 7)
      (List.replicate 16 0) true 16 = none ∧
    swizzle_experimental swizzle_x_16 swizzle_y_16 2 2 (List.replicate 64 3)
      (List.replicate 32 0) false 16 = none := by decide

/-- C10, counterexample: the 8-byte mask generators are not total at one tile:
`swizzle_x_8 1 1` and `swizzle_y_8 1 1` both panic on the shift
`!0 >> (leading_zeros(1) + 1) = !0 >> 32`; there is no `≤ 2` short-circuit in
the 8-byte variant. -/
theorem c10_counterexample : swizzle_x_8 1 1 = none ∧ swizzle_y_8 1 1 = none := by decide

/-- C10, amended: the 16-byte generators are total for all dimensions of at
least one tile thanks to the `≤ 2` short-circuits; the 8-byte generators have
no short-circuit: `swizzle_x_8` requires at least two tiles of width (and one
of height) and `swizzle_y_8` at least two tiles of height, and each fails by
shift overflow at exactly one tile on its axis. -/
theorem c10_totality_amended :
    (∀ w h : Nat, 1 ≤ w → 1 ≤ h →
      (swizzle_x_16 w h).isSome = true ∧ (swizzle_y_16 w h).isSome = true) ∧
    (∀ w h : Nat, 2 ≤ w → 1 ≤ h → (swizzle_x_8 w h).isSome = true) ∧
    (∀ w h : Nat, 2 ≤ h → (swizzle_y_8 w h).isSome = true) ∧
    (∀ h : Nat, swizzle_x_8 1 h = none) ∧
    (∀ w : Nat, swizzle_y_8 w 1 = none) :=
  ⟨fun _ _ hw hh => ⟨swizzle_x_16_isSome hw hh, swizzle_y_16_isSome hh⟩,
   fun _ _ hw hh => swizzle_x_8_isSome hw hh,
   fun _ _ hh => swizzle_y_8_isSome hh,
   swizzle_x_8_one, swizzle_y_8_one⟩

/-- C10, witness: the amended totality facts applied at concrete dimensions. -/
theorem c10_witness :
    (swizzle_x_16 3 5).isSome = true ∧ (swizzle_x_8 2 7).isSome = true ∧
    (swizzle_y_8 9 4).isSome = true ∧ swizzle_x_8 1 6 = none :=
  ⟨(c10_totality_amended.1 3 5 (by decide) (by decide)).1,
   c10_totality_amended.2.1 2 7 (by decide) (by decide),
   c10_totality_amended.2.2.1 9 4 (by decide),
   c10_totality_amended.2.2.2.1 6⟩

end NutexbSwizzle
